import Mathlib

/-!
Verification development for the MacroFinder repository (`app_fixed.py`).

The core under study is the free-text constraint parser (`parse_freeform`),
the constraint evaluator (`apply_constraints_frame` on single rows and
`valid_pair` on summed pairs), the single-item matcher
(filter, `sort_values`, `head`) and the two-item pair matcher
(same-restaurant grouping with a 250-per-group cap, or a 500-record cross
pool).

The Python regexes are embedded as hand-written character-level matchers
over `List Char`, reproducing the regex engine's semantics on these
patterns: greedy quantifiers (each `\s*`, `\s+`, `\d+` in these patterns is
followed by a token that can never start with the quantified character
class, so maximal munch is exact), alternation tried in written order with
backtracking into the continuation, and `re.finditer`'s left-to-right
non-overlapping scan.  Numeric literals `(\d+(?:\.\d+)?)` are parsed into
`ℚ` (Python parses them with `float`; on the digit strings these patterns
capture, `ℚ` ordering and equality agree with `float` up to rounding of
extreme precision, which no claim exercises).  `pandas.sort_values` is
embedded as pandas implements it in `nargsort`: an ascending sort always
runs a stable ascending argsort (stable on the list sizes exercised
here, where numpy's introsort is insertion sort); a descending sort
reverses both the value array and its index labels, stably argsorts
ascending, and reverses the resulting indexer, so ties between equal
keys keep original dataset order in both directions.
-/

attribute [local semireducible] Rat.add Rat.mul Rat.sub

namespace MacroFinder

/-- A parsed constraint, the Python dict `{"col": .., "op": .., "val": ..}`
produced by `parse_freeform` and consumed by the evaluators. -/
structure Constraint where
  col : String
  op : String
  val : ℚ
deriving DecidableEq

/-- The whitespace class of Python's `\s` (ASCII part), also the set
stripped by `str.strip()`. -/
def isWs (c : Char) : Bool :=
  c = ' ' || c = '\t' || c = '\n' || c = '\r' || c = '\x0b' || c = '\x0c'

/-- The digit class of the `\d` regex token (ASCII part). -/
def isDigitCh (c : Char) : Bool :=
  '0' ≤ c && c ≤ '9'

/-- Numeric value of one ASCII digit. -/
def digitVal (c : Char) : ℕ := c.toNat - 48

/-- Value of a digit string, most significant digit first. -/
def natOfDigits (ds : List Char) : ℕ :=
  ds.foldl (fun n c => 10 * n + digitVal c) 0

/-- Rational value of `float("<intPart>.<fracPart>")` for the digit groups
captured by `(\d+(?:\.\d+)?)`: the exact value
`intPart + fracPart / 10 ^ len fracPart`, built with `mkRat` so concrete
inputs evaluate inside the kernel. -/
def qOfParts (intPart fracPart : List Char) : ℚ :=
  mkRat (natOfDigits intPart * 10 ^ fracPart.length + natOfDigits fracPart)
    (10 ^ fracPart.length)

/-- Match the regex `(\d+(?:\.\d+)?)` at the head of `s`, returning the
captured value and the rest.  In every pattern of `parse_freeform` the
token after this group can never start with a digit or a dot, so the
greedy maximal munch is the unique successful length. -/
def matchNum (s : List Char) : Option (ℚ × List Char) :=
  let ds := s.takeWhile isDigitCh
  let r1 := s.dropWhile isDigitCh
  if ds.isEmpty then none
  else
    match r1 with
    | '.' :: r2 =>
      let fs := r2.takeWhile isDigitCh
      if fs.isEmpty then some (qOfParts ds [], r1)
      else some (qOfParts ds fs, r2.dropWhile isDigitCh)
    | _ => some (qOfParts ds [], r1)

/-- Strip a literal token (a `re.escape`d phrase) from the head of `s`. -/
def stripLit (lit s : List Char) : Option (List Char) :=
  if lit.isPrefixOf s then some (s.drop lit.length) else none

/-- Match `\s+` at the head of `s` (maximal munch; in every use the next
token cannot start with whitespace). -/
def stripWs1 (s : List Char) : Option (List Char) :=
  match s with
  | c :: rest => if isWs c then some (rest.dropWhile isWs) else none
  | [] => none

/-- Try a list of literal alternatives in regex order, backtracking into
the continuation `k`: the regex `(x|y|..)` followed by the rest of the
pattern. -/
def tryLits (alts : List (List Char)) (s : List Char) (k : List Char → Option α) :
    Option α :=
  match alts with
  | [] => none
  | lit :: rest =>
    match stripLit lit s with
    | some s1 =>
      match k s1 with
      | some x => some x
      | none => tryLits rest s k
    | none => tryLits rest s k

/-- Try a list of labeled literal alternatives in regex order with
backtracking, passing the label of the matched literal to the
continuation.  Models the capturing field alternation composed with the
`NAMES` lookup of `app_fixed.py`. -/
def tryLabeled (alts : List (List Char × String)) (s : List Char)
    (k : String → List Char → Option α) : Option α :=
  match alts with
  | [] => none
  | (lit, lab) :: rest =>
    match stripLit lit s with
    | some s1 =>
      match k lab s1 with
      | some x => some x
      | none => tryLabeled rest s k
    | none => tryLabeled rest s k

/-- The field alternation
`(calories|calorie|protein|proteins|carbs|carb|fat|fats)` of the three
patterns, paired with the `NAMES[..]` image of each capture. -/
def fieldAlts : List (List Char × String) :=
  [("calories".toList, "Calories"), ("calorie".toList, "Calories"),
   ("protein".toList, "Protein"), ("proteins".toList, "Protein"),
   ("carbs".toList, "Carbs"), ("carb".toList, "Carbs"),
   ("fat".toList, "Fat"), ("fats".toList, "Fat")]

/-- The optional unit `(?:g|grams|kcal)?`: alternatives in regex order,
the empty literal last (a greedy `?` prefers matching). -/
def unitAlts : List (List Char) :=
  ["g".toList, "grams".toList, "kcal".toList, []]

/-- Match the field alternation at the head of `s` with no continuation
(the patterns where the field group ends the regex). -/
def matchField (s : List Char) : Option (String × List Char) :=
  tryLabeled fieldAlts s (fun f r => some (f, r))

/-- The optional `(?:of\s+)?`: try the `of`-branch, else fall through to
the continuation directly. -/
def tryOf (s : List Char) (k : List Char → Option α) : Option α :=
  match stripLit "of".toList s with
  | some s1 =>
    match stripWs1 s1 with
    | some s2 =>
      match k s2 with
      | some x => some x
      | none => k s
    | none => k s
  | none => k s

/-- Anchored match of the first per-phrase pattern of `parse_freeform`:
`{phrase}\s+(\d+(?:\.\d+)?)\s*(?:g|grams|kcal)?\s*(?:of\s+)?(fields)`.
Returns the captured value, the `NAMES` image of the captured field, and
the unconsumed rest. -/
def matchP1 (phrase : List Char) (s : List Char) : Option ((ℚ × String) × List Char) := do
  let s ← stripLit phrase s
  let s ← stripWs1 s
  let (v, s) ← matchNum s
  let s := s.dropWhile isWs
  tryLits unitAlts s fun s =>
    let s := s.dropWhile isWs
    tryOf s fun s =>
      (matchField s).map fun fr => ((v, fr.1), fr.2)

/-- Anchored match of the second per-phrase pattern of `parse_freeform`:
`(fields)\s*{phrase}\s*(\d+(?:\.\d+)?)`. -/
def matchP2 (phrase : List Char) (s : List Char) : Option ((String × ℚ) × List Char) :=
  tryLabeled fieldAlts s fun f s => do
    let s := s.dropWhile isWs
    let s ← stripLit phrase s
    let s := s.dropWhile isWs
    let (v, s) ← matchNum s
    pure ((f, v), s)

/-- Anchored match of the range pattern of `parse_freeform`:
`between\s+(\d+(?:\.\d+)?)\s*(?:g|grams|kcal)?\s*(?:and|-)\s*`
`(\d+(?:\.\d+)?)\s*(?:g|grams|kcal)?\s*(fields)`. -/
def matchBetween (s : List Char) : Option ((ℚ × ℚ × String) × List Char) := do
  let s ← stripLit "between".toList s
  let s ← stripWs1 s
  let (a, s) ← matchNum s
  let s := s.dropWhile isWs
  tryLits unitAlts s fun s =>
    let s := s.dropWhile isWs
    tryLits ["and".toList, ['-']] s fun s => do
      let s := s.dropWhile isWs
      let (b, s) ← matchNum s
      let s := s.dropWhile isWs
      tryLits unitAlts s fun s =>
        let s := s.dropWhile isWs
        (matchField s).map fun fr => ((a, b, fr.1), fr.2)

/-- One step list of `re.finditer`: scan start positions left to right,
emit the match at the first position where the anchored matcher succeeds,
and continue after the matched text (all patterns here match at least two
characters, so the empty-match case only guards termination).  `fuel`
bounds the recursion; `findAll` supplies `s.length + 1`, which the scan
can never exhaust since every step drops at least one character. -/
def scanAux (m : List Char → Option (α × List Char)) : ℕ → List Char → List α
  | 0, _ => []
  | fuel + 1, s =>
    match m s with
    | some (a, rest) =>
      if rest.length < s.length then a :: scanAux m fuel rest
      else
        match s with
        | [] => [a]
        | _ :: t => a :: scanAux m fuel t
    | none =>
      match s with
      | [] => []
      | _ :: t => scanAux m fuel t

/-- All matches of an anchored matcher over `s`, as `re.finditer` yields
them. -/
def findAll (m : List Char → Option (α × List Char)) (s : List Char) : List α :=
  scanAux m (s.length + 1) s

/-- The `OPS_MAP` dict of `app_fixed.py`, in Python 3.7+ insertion order
(the order `parse_freeform` iterates it).  The Python code applies
`.strip()` to each operator value; every value is already free of
whitespace, so the table lists the stripped values. -/
def opsList : List (String × String) :=
  [("over", ">="), ("at least", ">="), (">=", ">="),
   ("greater than or equal to", ">="), ("greater than", ">"), (">", ">"),
   ("under", "<="), ("at most", "<="), ("<=", "<="),
   ("less than or equal to", "<="), ("less than", "<"), ("<", "<"),
   ("exactly", "=="), ("equal to", "=="), ("=", "==")]

/-- The constraints appended for one match of the `between` pattern:
`lo, hi = sorted([a, b])` then `col >= lo` and `col <= hi`.  Python's
`sorted` swaps the two values exactly when `b < a`. -/
def betweenConstraints (a b : ℚ) (f : String) : List Constraint :=
  let lo := if b < a then b else a
  let hi := if b < a then a else b
  [{ col := f, op := ">=", val := lo }, { col := f, op := "<=", val := hi }]

/-- All constraints collected over the lower-cased text, in the order
`parse_freeform` appends them: every `between` match first, then for each
`OPS_MAP` entry every match of the phrase-first pattern followed by every
match of the field-first pattern. -/
def collectAll (text : List Char) : List Constraint :=
  (findAll matchBetween text).flatMap
      (fun t => betweenConstraints t.1 t.2.1 t.2.2)
    ++ opsList.flatMap fun po =>
        (findAll (matchP1 po.1.toList) text).map
            (fun vf => { col := vf.2, op := po.2, val := vf.1 })
          ++ (findAll (matchP2 po.1.toList) text).map
            (fun fv => { col := fv.1, op := po.2, val := fv.2 })

/-- The deduplication pass of `parse_freeform`: drop any constraint whose
`(col, op, val)` triple was already seen, keeping first occurrences. -/
def dedupGo [DecidableEq α] : List α → List α → List α
  | [], _ => []
  | c :: rest, seen =>
    if c ∈ seen then dedupGo rest seen else c :: dedupGo rest (c :: seen)

/-- Deduplicate a list keeping the first occurrence of each value. -/
def dedupFirst [DecidableEq α] (l : List α) : List α :=
  dedupGo l []

/-- The free-text parser `parse_freeform` of `app_fixed.py`: empty or
whitespace-only input short-circuits to `[]`; otherwise the input is
lower-cased, every pattern is run over the whole text, and identical
`(col, op, val)` triples are deduplicated keeping first occurrences. -/
def parse_freeform (q : String) : List Constraint :=
  if q.toList.all isWs then []
  else dedupFirst (collectAll (q.toList.map Char.toLower))

/-- A dataset row: one menu record with the four numeric macros, as the
loader guarantees them (all four present and numeric). -/
structure Row where
  restaurant : String
  item : String
  calories : ℚ
  protein : ℚ
  carbs : ℚ
  fat : ℚ
deriving DecidableEq

/-- Column access `frame[col]` / `r[col]` for the four macro columns.
Unrecognized column names cannot reach this lookup in the program (the
parser and the UI produce only the four macro names; in Python an unknown
key would raise), so the default branch is arbitrary. -/
def rowVal (r : Row) (col : String) : ℚ :=
  if col = "Calories" then r.calories
  else if col = "Protein" then r.protein
  else if col = "Carbs" then r.carbs
  else if col = "Fat" then r.fat
  else 0

/-- The summed-macros dict `vals` built by `valid_pair` from two rows,
indexed by column name. -/
def pairVal (r1 r2 : Row) (col : String) : ℚ :=
  if col = "Calories" then r1.calories + r2.calories
  else if col = "Protein" then r1.protein + r2.protein
  else if col = "Carbs" then r1.carbs + r2.carbs
  else if col = "Fat" then r1.fat + r2.fat
  else 0

/-- One constraint's contribution to the boolean mask of
`apply_constraints_frame` (operator branches in source order; an operator
outside the five leaves the mask unchanged, i.e. contributes `true`). -/
def maskBit (v : ℚ) (op : String) (t : ℚ) : Bool :=
  if op = ">=" then decide (v ≥ t)
  else if op = "<=" then decide (v ≤ t)
  else if op = "==" then decide (v = t)
  else if op = ">" then decide (v > t)
  else if op = "<" then decide (v < t)
  else true

/-- The frame filter `apply_constraints_frame`: an empty constraint list
returns the frame unchanged; otherwise the frame is restricted to the
rows on which every constraint's mask bit is true. -/
def apply_constraints_frame (frame : List Row) (cs : List Constraint) : List Row :=
  if cs.isEmpty then frame
  else frame.filter fun r => cs.all fun c => maskBit (rowVal r c.col) c.op c.val

/-- One constraint check of `valid_pair` (operator branches in source
order: `>=`, `<=`, `>`, `<`, `==`; a failed check returns `False`, an
operator outside the five falls through to `True`). -/
def pairCheck (v : ℚ) (op : String) (t : ℚ) : Bool :=
  if op = ">=" ∧ ¬ (v ≥ t) then false
  else if op = "<=" ∧ ¬ (v ≤ t) then false
  else if op = ">" ∧ ¬ (v > t) then false
  else if op = "<" ∧ ¬ (v < t) then false
  else if op = "==" ∧ ¬ (v = t) then false
  else true

/-- The pair predicate `valid_pair`: sums the two rows' macros and checks
every constraint against the summed values. -/
def valid_pair (cs : List Constraint) (r1 r2 : Row) : Bool :=
  cs.all fun c => pairCheck (pairVal r1 r2 c.col) c.op c.val

/-- The order underlying a stable ascending argsort of the key, on
index-decorated elements: compare keys, break ties by original position.
This is the order `pandas.nargsort` realizes before the descending
reversal (numpy's sort is deterministic; on the sizes exercised here its
introsort is a stable insertion sort). -/
def stKey (key : α → ℚ) (a b : ℕ × α) : Prop :=
  key a.2 < key b.2 ∨ (key a.2 = key b.2 ∧ a.1 ≤ b.1)

instance (key : α → ℚ) : DecidableRel (stKey key) := fun _ _ =>
  inferInstanceAs (Decidable (_ ∨ _))

instance (key : α → ℚ) : IsTotal (ℕ × α) (stKey key) where
  total a b := by
    rcases lt_trichotomy (key a.2) (key b.2) with h | h | h
    · exact Or.inl (Or.inl h)
    · rcases Nat.le_total a.1 b.1 with h2 | h2
      · exact Or.inl (Or.inr ⟨h, h2⟩)
      · exact Or.inr (Or.inr ⟨h.symm, h2⟩)
    · exact Or.inr (Or.inl h)

instance (key : α → ℚ) : IsTrans (ℕ × α) (stKey key) where
  trans a b c hab hbc := by
    rcases hab with h1 | ⟨h1, i1⟩
    · rcases hbc with h2 | ⟨h2, _⟩
      · exact Or.inl (h1.trans h2)
      · exact Or.inl (h2 ▸ h1)
    · rcases hbc with h2 | ⟨h2, i2⟩
      · exact Or.inl (h1 ▸ h2)
      · exact Or.inr ⟨h1.trans h2, i1.trans i2⟩

instance : IsAntisymm (ℕ × α) (fun a b => a.1 < b.1) where
  antisymm _ _ h1 h2 := absurd (h1.trans h2) (lt_irrefl _)

/-- A stable ascending sort by key: decorate each element with its
position in the list being sorted, sort by (key, position), and strip
the decoration — the list-level behavior of a stable ascending argsort
applied to that list. -/
def stableAsc (key : α → ℚ) (l : List α) : List α :=
  (List.insertionSort (stKey key) l.enum).map Prod.snd

/-- The sort of `sort_values(by=col, ascending=asc)` as pandas implements
it in `nargsort`: an ascending sort is a stable ascending argsort of the
array; a descending sort reverses the array together with its index
labels, stably argsorts the reversed array ascending, and reverses the
resulting indexer — at the list level, the reverse of a stable ascending
sort of the reversed list.  In both directions ties between equal keys
keep original dataset order. -/
def stableSortBy (key : α → ℚ) (asc : Bool) (l : List α) : List α :=
  if asc then stableAsc key l else (stableAsc key l.reverse).reverse

/-- `DataFrame.sort_values(by=col, ascending=asc)` on a frame of rows. -/
def sort_values (col : String) (asc : Bool) (rows : List Row) : List Row :=
  stableSortBy (fun r => rowVal r col) asc rows

/-- The single-item pipeline (lines 226 to 227 of `app_fixed.py`):
filter by the constraints, sort by the sort column in the requested
direction, truncate with `head(max_results)`. -/
def single_item_results (rows : List Row) (cs : List Constraint) (col : String)
    (asc : Bool) (k : ℕ) : List Row :=
  (sort_values col asc (apply_constraints_frame rows cs)).take k

/-- A combo result record (one appended dict of the combo search). -/
structure Combo where
  restaurant : String
  item1 : String
  item2 : String
  calories : ℚ
  protein : ℚ
  carbs : ℚ
  fat : ℚ
deriving DecidableEq

/-- The dict appended in the same-restaurant branch: the single group
restaurant, the two item names, and the summed macros. -/
def mkComboSame (rest : String) (r1 r2 : Row) : Combo :=
  { restaurant := rest, item1 := r1.item, item2 := r2.item,
    calories := r1.calories + r2.calories, protein := r1.protein + r2.protein,
    carbs := r1.carbs + r2.carbs, fat := r1.fat + r2.fat }

/-- The dict appended in the cross-restaurant branch: both restaurant
names concatenated, item names suffixed with their restaurant, summed
macros. -/
def mkComboCross (r1 r2 : Row) : Combo :=
  { restaurant := r1.restaurant ++ " + " ++ r2.restaurant,
    item1 := r1.item ++ " (" ++ r1.restaurant ++ ")",
    item2 := r2.item ++ " (" ++ r2.restaurant ++ ")",
    calories := r1.calories + r2.calories, protein := r1.protein + r2.protein,
    carbs := r1.carbs + r2.carbs, fat := r1.fat + r2.fat }

/-- Column access on a combo result (for the final `sort_values`). -/
def comboVal (c : Combo) (col : String) : ℚ :=
  if col = "Calories" then c.calories
  else if col = "Protein" then c.protein
  else if col = "Carbs" then c.carbs
  else if col = "Fat" then c.fat
  else 0

/-- `itertools.combinations(range(len g), 2)` applied to a list: all
pairs `(g[i], g[j])` with `i < j`, in lexicographic index order. -/
def allPairs : List α → List (α × α)
  | [] => []
  | x :: xs => (xs.map fun y => (x, y)) ++ allPairs xs

/-- Code-point lexicographic comparison on character lists: Python's `<`
on strings, written structurally so concrete inputs reduce. -/
def strLtB : List Char → List Char → Bool
  | [], [] => false
  | [], _ :: _ => true
  | _ :: _, [] => false
  | a :: as, b :: bs => if a < b then true else if b < a then false else strLtB as bs

/-- The group keys of `base.groupby("Restaurant")`: the distinct
restaurant names in sorted order (pandas sorts group keys; Python string
comparison is code-point lexicographic). -/
def uniqueRestaurants (rows : List Row) : List String :=
  List.insertionSort (fun a b => strLtB a.data b.data ∨ a = b)
    (dedupFirst (rows.map Row.restaurant))

/-- The same-restaurant combo enumeration (lines 258 to 272): for each
restaurant group in key order, cap the group at its first 250 records,
enumerate all index pairs `i < j`, keep the pairs passing `valid_pair`,
and append the combo dict labeled with the group's restaurant. -/
def combosSame (rows : List Row) (cs : List Constraint) : List Combo :=
  (uniqueRestaurants rows).flatMap fun rest =>
    let g := (rows.filter fun r => r.restaurant == rest).take 250
    ((allPairs g).filter fun p => valid_pair cs p.1 p.2).map fun p =>
      mkComboSame rest p.1 p.2

/-- The cross-restaurant combo enumeration (lines 273 to 286): cap the
whole dataset at its first 500 records, enumerate all index pairs,
keep the pairs passing `valid_pair`, label with both restaurants. -/
def combosCross (rows : List Row) (cs : List Constraint) : List Combo :=
  ((allPairs (rows.take 500)).filter fun p => valid_pair cs p.1 p.2).map fun p =>
    mkComboCross p.1 p.2

/-- `DataFrame.sort_values` on the combo result frame. -/
def sort_combos (col : String) (asc : Bool) (combos : List Combo) : List Combo :=
  stableSortBy (fun c => comboVal c col) asc combos

/-- The combo pipeline (lines 236 to 290): build the combos for the
requested mode, and unless the result frame is empty, sort it by the
sort column and truncate with `head(max_results)`. -/
def pair_results (rows : List Row) (cs : List Constraint) (sameOnly : Bool)
    (col : String) (asc : Bool) (k : ℕ) : List Combo :=
  let combos := if sameOnly then combosSame rows cs else combosCross rows cs
  if combos.isEmpty then combos
  else (sort_combos col asc combos).take k

/-- The four macro column names (the image of the `NAMES` dict). -/
def fourCols : List String := ["Calories", "Protein", "Carbs", "Fat"]

/-- The five operator symbols (the image of the `OPS_MAP` dict). -/
def fiveOps : List String := [">=", "<=", "==", ">", "<"]

/-- Well-formedness of a constraint: recognized column, recognized
operator, non-negative threshold. -/
def wfConstraint (c : Constraint) : Prop :=
  c.col ∈ fourCols ∧ c.op ∈ fiveOps ∧ 0 ≤ c.val

/-- The spec's reading of one constraint (section 4.2): the operator
applied to the looked-up value and the threshold, for the five
recognized operators. -/
def specHolds (op : String) (v t : ℚ) : Prop :=
  if op = ">=" then v ≥ t
  else if op = "<=" then v ≤ t
  else if op = "==" then v = t
  else if op = ">" then v > t
  else if op = "<" then v < t
  else False

/-- A three-record dataset in a single restaurant group. -/
def rowA0 : Row := ⟨"A", "a0", 300, 20, 30, 10⟩

/-- Second record of the three-record dataset. -/
def rowA1 : Row := ⟨"A", "a1", 400, 25, 35, 15⟩

/-- Third record of the three-record dataset. -/
def rowA2 : Row := ⟨"A", "a2", 500, 30, 40, 20⟩

/-- The three-record single-group dataset of spec section 8, property 7. -/
def rowsThree : List Row := [rowA0, rowA1, rowA2]

/-- First record of a two-record dataset with equal Protein values. -/
def rowT0 : Row := ⟨"A", "t0", 100, 30, 10, 5⟩

/-- Second record of the tie dataset: same Protein, different item. -/
def rowT1 : Row := ⟨"B", "t1", 200, 30, 20, 9⟩

/-- A dataset whose two records tie on the Protein sort key. -/
def rowsTie : List Row := [rowT0, rowT1]

/-! Helper lemmas about the deduplication pass. -/

theorem dedupGo_congr [DecidableEq α] {l s1 s2 : List α}
    (h : ∀ x, x ∈ s1 ↔ x ∈ s2) : dedupGo l s1 = dedupGo l s2 := by
  induction l generalizing s1 s2 with
  | nil => rfl
  | cons c rest ih =>
    by_cases hc : c ∈ s1
    · rw [dedupGo, if_pos hc, dedupGo, if_pos ((h c).mp hc)]
      exact ih h
    · rw [dedupGo, if_neg hc, dedupGo, if_neg (fun hx => hc ((h c).mpr hx))]
      congr 1
      exact ih (fun x => by simp only [List.mem_cons, h x])

theorem dedupGo_cons_seen [DecidableEq α] (c : α) :
    ∀ (l seen : List α),
      dedupGo l (c :: seen) = dedupGo (l.filter fun x => decide (x ≠ c)) seen := by
  intro l
  induction l with
  | nil => intro seen; rfl
  | cons x rest ih =>
    intro seen
    by_cases hxc : x = c
    · subst hxc
      have hstep : List.filter (fun y => decide (y ≠ x)) (x :: rest)
          = List.filter (fun y => decide (y ≠ x)) rest :=
        List.filter_cons_of_neg (by simp)
      rw [hstep, dedupGo, if_pos (List.mem_cons_self x seen)]
      exact ih seen
    · rw [List.filter_cons_of_pos (by simp [hxc]), dedupGo, dedupGo]
      by_cases hxs : x ∈ seen
      · rw [if_pos (List.mem_cons_of_mem c hxs), if_pos hxs]
        exact ih seen
      · have hnot : x ∉ c :: seen := by
          intro hmem
          rcases List.mem_cons.mp hmem with h | h
          · exact hxc h
          · exact hxs h
        rw [if_neg hnot, if_neg hxs]
        congr 1
        rw [@dedupGo_congr _ _ rest (x :: c :: seen) (c :: x :: seen) (fun y => by
          simp only [List.mem_cons]; tauto)]
        exact ih (x :: seen)

theorem mem_dedupGo [DecidableEq α] {a : α} :
    ∀ {l seen : List α}, a ∈ dedupGo l seen ↔ (a ∈ l ∧ a ∉ seen) := by
  intro l
  induction l with
  | nil => intro seen; simp [dedupGo]
  | cons c rest ih =>
    intro seen
    rw [dedupGo]
    by_cases hc : c ∈ seen
    · rw [if_pos hc, ih]
      simp only [List.mem_cons]
      constructor
      · rintro ⟨h1, h2⟩
        exact ⟨Or.inr h1, h2⟩
      · rintro ⟨h1 | h1, h2⟩
        · exact absurd (h1 ▸ hc) h2
        · exact ⟨h1, h2⟩
    · rw [if_neg hc, List.mem_cons, ih]
      simp only [List.mem_cons, not_or]
      constructor
      · rintro (h | ⟨h1, h2⟩)
        · subst h
          exact ⟨Or.inl rfl, hc⟩
        · exact ⟨Or.inr h1, h2.2⟩
      · rintro ⟨h1 | h1, h2⟩
        · exact Or.inl h1
        · by_cases hac : a = c
          · exact Or.inl hac
          · exact Or.inr ⟨h1, hac, h2⟩

theorem dedupGo_sublist [DecidableEq α] :
    ∀ (l seen : List α), (dedupGo l seen).Sublist l := by
  intro l
  induction l with
  | nil => intro seen; exact List.Sublist.refl []
  | cons c rest ih =>
    intro seen
    rw [dedupGo]
    by_cases hc : c ∈ seen
    · rw [if_pos hc]; exact (ih seen).cons c
    · rw [if_neg hc]; exact (ih (c :: seen)).cons₂ c

theorem dedupGo_nodup [DecidableEq α] :
    ∀ (l seen : List α), (dedupGo l seen).Nodup := by
  intro l
  induction l with
  | nil => intro seen; exact List.nodup_nil
  | cons c rest ih =>
    intro seen
    rw [dedupGo]
    by_cases hc : c ∈ seen
    · rw [if_pos hc]; exact ih seen
    · rw [if_neg hc]
      refine List.nodup_cons.mpr ⟨?_, ih (c :: seen)⟩
      intro hmem
      exact (mem_dedupGo.mp hmem).2 (List.mem_cons_self c seen)

/-- Claim C2 counterexample: an input containing both the phrasing
`over 30 protein` and the phrasing `protein >= 30` yields a single
constraint, not two — the two phrasings normalize to the identical triple
`(Protein, >=, 30)` (the `OPS_MAP` maps `over` to `>=`), and the
deduplication pass keys on the triple, not on the source text. -/
theorem parse_overlapping_phrasings_counterexample :
    (parse_freeform "protein >= 30 and over 30 protein").length = 1 := by decide

/-- Claim C2 (amended): an input containing both `over 30 protein` and
`protein >= 30` has the two extractions merged into the single constraint
`Protein >= 30`, because both normalize to the same
`(field, operator, value)` triple; merging is decided by triple equality,
not by textual identity, so textually distinct phrasings with different
triples (such as `over 31 protein`) do stay separate. -/
theorem parse_overlapping_phrasings_merged :
    parse_freeform "protein >= 30 and over 30 protein"
        = [⟨"Protein", ">=", 30⟩]
      ∧ parse_freeform "over 30 protein and protein >= 30"
        = [⟨"Protein", ">=", 30⟩]
      ∧ parse_freeform "protein >= 30 and over 31 protein"
        = [⟨"Protein", ">=", 31⟩, ⟨"Protein", ">=", 30⟩] := by
  refine ⟨by decide, by decide, by decide⟩

/-- Claim C4: a `between A and B field` phrase always contributes the two
constraints `field >= min A B` and `field <= max A B`, with the bounds
sorted regardless of their order in the text; in particular the two spec
examples `between 20 and 40g protein` and `between 40 and 20g protein`
both parse to `Protein >= 20, Protein <= 40`. -/
theorem between_bounds_sorted :
    (∀ (a b : ℚ) (f : String),
        betweenConstraints a b f
          = [⟨f, ">=", min a b⟩, ⟨f, "<=", max a b⟩])
      ∧ parse_freeform "between 20 and 40g protein"
        = [⟨"Protein", ">=", 20⟩, ⟨"Protein", "<=", 40⟩]
      ∧ parse_freeform "between 40 and 20g protein"
        = [⟨"Protein", ">=", 20⟩, ⟨"Protein", "<=", 40⟩] := by
  refine ⟨?_, by decide, by decide⟩
  intro a b f
  unfold betweenConstraints
  rcases lt_or_le b a with h | h
  · simp only [if_pos h, min_eq_right h.le, max_eq_left h.le]
  · simp only [if_neg (not_lt.mpr h), min_eq_left h, max_eq_right h]

/-- Claim C5: the parser's output is the collected constraint list with
every later duplicate of an earlier `(col, op, val)` triple removed: it
is a duplicate-free sublist of the collected list with the same members,
and removing duplicates keeps the first occurrence's position (the
keep-first recurrence); in particular a recognized phrase repeated twice
verbatim yields a single constraint. -/
theorem parse_dedup_keeps_first :
    (∀ q : String, q.toList.all isWs = false →
        parse_freeform q = dedupFirst (collectAll (q.toList.map Char.toLower)))
      ∧ (∀ l : List Constraint, (dedupFirst l).Sublist l)
      ∧ (∀ (l : List Constraint) (c : Constraint), c ∈ dedupFirst l ↔ c ∈ l)
      ∧ (∀ l : List Constraint, (dedupFirst l).Nodup)
      ∧ (∀ (c : Constraint) (l : List Constraint),
          dedupFirst (c :: l) = c :: dedupFirst (l.filter fun x => decide (x ≠ c)))
      ∧ parse_freeform "over 30 protein over 30 protein" = [⟨"Protein", ">=", 30⟩] := by
  refine ⟨?_, ?_, ?_, ?_, ?_, by decide⟩
  · intro q hq
    rw [parse_freeform, if_neg (by rw [hq]; exact Bool.false_ne_true)]
  · intro l
    exact dedupGo_sublist l []
  · intro l c
    rw [dedupFirst, mem_dedupGo]
    simp
  · intro l
    exact dedupGo_nodup l []
  · intro c l
    rw [dedupFirst, dedupGo, if_neg (List.not_mem_nil c), dedupFirst]
    congr 1
    exact dedupGo_cons_seen c l []

/-- Claim C7: the parser is total and never fails — an all-whitespace
(in particular empty) input yields the empty constraint list, an input
over which no pattern collects anything yields the empty constraint list,
and the three concrete shapes (empty, blank, no recognized phrase) all
parse to the empty list. -/
theorem parse_never_fails :
    (∀ q : String, q.toList.all isWs = true → parse_freeform q = [])
      ∧ (∀ q : String, collectAll (q.toList.map Char.toLower) = [] →
          parse_freeform q = [])
      ∧ parse_freeform "" = []
      ∧ parse_freeform "   " = []
      ∧ parse_freeform "no recognized phrase here" = [] := by
  refine ⟨?_, ?_, by decide, by decide, by decide⟩
  · intro q hq
    rw [parse_freeform, if_pos hq]
  · intro q hq
    rw [parse_freeform]
    by_cases hws : q.toList.all isWs = true
    · rw [if_pos hws]
    · rw [if_neg hws, hq]
      rfl

/-- Claim C7 witness: the second clause of `parse_never_fails` applied to
the concrete unparseable input `xyz`. -/
theorem parse_never_fails_witness :
    collectAll ("xyz".toList.map Char.toLower) = [] ∧ parse_freeform "xyz" = [] :=
  ⟨by decide, parse_never_fails.2.1 "xyz" (by decide)⟩

/-- Claim C8: on the dataset of exactly 3 records in one restaurant group
(under the 250-per-group cap) with the single constraint `Protein >= 0`
and `same_restaurant_only` true, the pair matcher builds exactly the
3 = C(3,2) unordered pairs of distinct records, and the full combo
pipeline (sort plus cap 50) returns 3 rows. -/
theorem three_records_three_pairs :
    combosSame rowsThree [⟨"Protein", ">=", 0⟩]
        = [mkComboSame "A" rowA0 rowA1, mkComboSame "A" rowA0 rowA2,
           mkComboSame "A" rowA1 rowA2]
      ∧ (combosSame rowsThree [⟨"Protein", ">=", 0⟩]).length = 3
      ∧ (pair_results rowsThree [⟨"Protein", ">=", 0⟩] true "Protein" false 50).length = 3 := by
  refine ⟨by decide, by decide, by decide⟩

/-! Evaluator lemmas: each operator branch agrees with the spec's reading
of the constraint. -/

theorem maskBit_iff {op : String} (hop : op ∈ fiveOps) (v t : ℚ) :
    maskBit v op t = true ↔ specHolds op v t := by
  simp only [fiveOps, List.mem_cons, List.not_mem_nil, or_false] at hop
  rcases hop with h | h | h | h | h <;> subst h <;>
    simp [maskBit, specHolds, decide_eq_true_iff]

theorem pairCheck_iff {op : String} (hop : op ∈ fiveOps) (v t : ℚ) :
    pairCheck v op t = true ↔ specHolds op v t := by
  simp only [fiveOps, List.mem_cons, List.not_mem_nil, or_false] at hop
  rcases hop with h | h | h | h | h <;> subst h
  · by_cases hv : v ≥ t <;> simp [pairCheck, specHolds, hv]
  · by_cases hv : v ≤ t <;> simp [pairCheck, specHolds, hv]
  · by_cases hv : v = t <;> simp [pairCheck, specHolds, hv]
  · by_cases hv : v > t <;> simp [pairCheck, specHolds, hv]
  · by_cases hv : v < t <;> simp [pairCheck, specHolds, hv]

/-- Claim C3: for any frame, any pair of rows and any constraint list of
well-formed operators, the frame evaluator keeps a row iff every
constraint holds of the row's looked-up value, the pair evaluator accepts
iff every constraint holds of the summed value, and an empty constraint
list filters nothing and accepts every pair. -/
theorem evaluator_iff_every_constraint (frame : List Row) (cs : List Constraint)
    (r s1 s2 : Row) (hwf : ∀ c ∈ cs, c.op ∈ fiveOps) :
    (r ∈ apply_constraints_frame frame cs ↔
        r ∈ frame ∧ ∀ c ∈ cs, specHolds c.op (rowVal r c.col) c.val)
      ∧ (valid_pair cs s1 s2 = true ↔
        ∀ c ∈ cs, specHolds c.op (pairVal s1 s2 c.col) c.val)
      ∧ apply_constraints_frame frame [] = frame
      ∧ valid_pair [] s1 s2 = true := by
  refine ⟨?_, ?_, rfl, rfl⟩
  · rw [apply_constraints_frame]
    cases cs with
    | nil => simp
    | cons c0 rest =>
      rw [if_neg (by simp), List.mem_filter, List.all_eq_true]
      constructor
      · rintro ⟨h1, h2⟩
        exact ⟨h1, fun c hc => (maskBit_iff (hwf c hc) _ _).mp (h2 c hc)⟩
      · rintro ⟨h1, h2⟩
        exact ⟨h1, fun c hc => (maskBit_iff (hwf c hc) _ _).mpr (h2 c hc)⟩
  · rw [valid_pair, List.all_eq_true]
    constructor
    · intro h c hc
      exact (pairCheck_iff (hwf c hc) _ _).mp (h c hc)
    · intro h c hc
      exact (pairCheck_iff (hwf c hc) _ _).mpr (h c hc)

/-- Claim C3 witness: the frame-evaluator clause of
`evaluator_iff_every_constraint` at the concrete tie dataset with the
single well-formed constraint `Protein >= 25`. -/
theorem evaluator_iff_every_constraint_witness :
    (∀ c ∈ [Constraint.mk "Protein" ">=" 25], c.op ∈ fiveOps)
      ∧ (rowT0 ∈ apply_constraints_frame rowsTie [⟨"Protein", ">=", 25⟩] ↔
          rowT0 ∈ rowsTie ∧ ∀ c ∈ [Constraint.mk "Protein" ">=" 25],
            specHolds c.op (rowVal rowT0 c.col) c.val) :=
  ⟨by decide,
    (evaluator_iff_every_constraint rowsTie [⟨"Protein", ">=", 25⟩] rowT0 rowT0 rowT1
      (by decide)).1⟩

/-- Both components of a pair produced by `allPairs` are members of the
underlying list. -/
theorem mem_allPairs {p : α × α} :
    ∀ {l : List α}, p ∈ allPairs l → p.1 ∈ l ∧ p.2 ∈ l := by
  intro l
  induction l with
  | nil => intro h; exact absurd h (List.not_mem_nil p)
  | cons x xs ih =>
    intro h
    rw [allPairs, List.mem_append] at h
    rcases h with h | h
    · rw [List.mem_map] at h
      obtain ⟨y, hy, hxy⟩ := h
      rw [← hxy]
      exact ⟨List.mem_cons_self x xs, List.mem_cons_of_mem x hy⟩
    · obtain ⟨h1, h2⟩ := ih h
      exact ⟨List.mem_cons_of_mem x h1, List.mem_cons_of_mem x h2⟩

/-- Claim C6: with `same_restaurant_only` true, every combo the pair
matcher emits is built from two records drawn from the first 250 records
of a single restaurant partition — both records carry the combo's
restaurant label, the pair passed `valid_pair`, and the combo is the
same-restaurant combo dict of those two records. -/
theorem same_restaurant_pairs_single_group (rows : List Row) (cs : List Constraint)
    (combo : Combo) (h : combo ∈ combosSame rows cs) :
    ∃ r1 r2 : Row,
      r1 ∈ (rows.filter fun r => r.restaurant == combo.restaurant).take 250
        ∧ r2 ∈ (rows.filter fun r => r.restaurant == combo.restaurant).take 250
        ∧ r1.restaurant = combo.restaurant
        ∧ r2.restaurant = combo.restaurant
        ∧ valid_pair cs r1 r2 = true
        ∧ combo = mkComboSame combo.restaurant r1 r2 := by
  rw [combosSame, List.mem_flatMap] at h
  obtain ⟨rest, _, h⟩ := h
  rw [List.mem_map] at h
  obtain ⟨p, hp, hcombo⟩ := h
  rw [List.mem_filter] at hp
  obtain ⟨hpair, hvalid⟩ := hp
  obtain ⟨h1, h2⟩ := mem_allPairs hpair
  have hlabel : combo.restaurant = rest := by rw [← hcombo]; rfl
  subst hlabel
  refine ⟨p.1, p.2, h1, h2, ?_, ?_, hvalid, hcombo.symm⟩
  · have := (List.mem_filter.mp (List.take_subset 250 _ h1)).2
    exact (beq_iff_eq).mp this
  · have := (List.mem_filter.mp (List.take_subset 250 _ h2)).2
    exact (beq_iff_eq).mp this

/-- Claim C6 witness: `same_restaurant_pairs_single_group` applied to a
concrete combo of the three-record dataset. -/
theorem same_restaurant_pairs_single_group_witness :
    (mkComboSame "A" rowA0 rowA1 ∈ combosSame rowsThree [⟨"Protein", ">=", 0⟩])
      ∧ ∃ r1 r2 : Row,
        r1 ∈ (rowsThree.filter fun r =>
            r.restaurant == (mkComboSame "A" rowA0 rowA1).restaurant).take 250
          ∧ r2 ∈ (rowsThree.filter fun r =>
            r.restaurant == (mkComboSame "A" rowA0 rowA1).restaurant).take 250
          ∧ r1.restaurant = (mkComboSame "A" rowA0 rowA1).restaurant
          ∧ r2.restaurant = (mkComboSame "A" rowA0 rowA1).restaurant
          ∧ valid_pair [⟨"Protein", ">=", 0⟩] r1 r2 = true
          ∧ mkComboSame "A" rowA0 rowA1
            = mkComboSame (mkComboSame "A" rowA0 rowA1).restaurant r1 r2 :=
  ⟨by decide,
    same_restaurant_pairs_single_group rowsThree [⟨"Protein", ">=", 0⟩]
      (mkComboSame "A" rowA0 rowA1) (by decide)⟩

/-- Sorting the empty combo frame yields the empty frame. -/
theorem sort_combos_nil (col : String) (asc : Bool) : sort_combos col asc [] = [] := by
  cases asc <;> rfl

/-- The combo pipeline always equals the sorted-and-truncated combo list
(the `not empty` guard in the source only skips sorting an empty frame,
which sorts and truncates to itself). -/
theorem pair_results_eq_take (rows : List Row) (cs : List Constraint)
    (sameOnly : Bool) (col : String) (asc : Bool) (k : ℕ) :
    pair_results rows cs sameOnly col asc k
      = (sort_combos col asc
          (if sameOnly then combosSame rows cs else combosCross rows cs)).take k := by
  rw [pair_results]
  by_cases hc : (if sameOnly then combosSame rows cs else combosCross rows cs).isEmpty = true
  · rw [if_pos hc, List.isEmpty_iff.mp hc, sort_combos_nil, List.take_nil]
  · rw [if_neg hc]

/-- Claim C9: enlarging the result cap never drops a result — for caps
`k1 ≤ k2`, the single-item output at cap `k1` is exactly the first `k1`
rows of the output at cap `k2` (so each of its rows also appears there),
and likewise for the combo pipeline in either pairing mode. -/
theorem cap_prefix_stability (rows : List Row) (cs : List Constraint) (col : String)
    (asc sameOnly : Bool) (k1 k2 : ℕ) (h : k1 ≤ k2) :
    single_item_results rows cs col asc k1
        = (single_item_results rows cs col asc k2).take k1
      ∧ (∀ r, r ∈ single_item_results rows cs col asc k1 →
          r ∈ single_item_results rows cs col asc k2)
      ∧ pair_results rows cs sameOnly col asc k1
        = (pair_results rows cs sameOnly col asc k2).take k1
      ∧ (∀ c, c ∈ pair_results rows cs sameOnly col asc k1 →
          c ∈ pair_results rows cs sameOnly col asc k2) := by
  have hsingle : single_item_results rows cs col asc k1
      = (single_item_results rows cs col asc k2).take k1 := by
    rw [single_item_results, single_item_results, List.take_take, min_eq_left h]
  have hpair : pair_results rows cs sameOnly col asc k1
      = (pair_results rows cs sameOnly col asc k2).take k1 := by
    rw [pair_results_eq_take, pair_results_eq_take, List.take_take, min_eq_left h]
  refine ⟨hsingle, ?_, hpair, ?_⟩
  · intro r hr
    rw [hsingle] at hr
    exact List.take_subset k1 _ hr
  · intro c hc
    rw [hpair] at hc
    exact List.take_subset k1 _ hc

/-- Claim C9 witness: `cap_prefix_stability` at the three-record dataset
with caps 1 and 2. -/
theorem cap_prefix_stability_witness :
    (1 ≤ 2)
      ∧ single_item_results rowsThree [] "Protein" false 1
        = (single_item_results rowsThree [] "Protein" false 2).take 1 :=
  ⟨by decide,
    (cap_prefix_stability rowsThree [] "Protein" false true 1 2 (by decide)).1⟩

/-! Stable-sort machinery for the `sort_values` embedding. -/

theorem enum_pairwise_idx (l : List α) : l.enum.Pairwise fun a b => a.1 < b.1 := by
  have h := List.pairwise_lt_range l.length
  rw [← List.enum_map_fst l] at h
  exact List.pairwise_map.mp h

theorem stableAsc_perm (key : α → ℚ) (l : List α) : (stableAsc key l).Perm l := by
  rw [stableAsc]
  have hp := (List.perm_insertionSort (stKey key) l.enum).map Prod.snd
  rwa [List.enum_map_snd] at hp

theorem stableSortBy_perm (key : α → ℚ) (asc : Bool) (l : List α) :
    (stableSortBy key asc l).Perm l := by
  rw [stableSortBy]
  cases asc
  · exact (List.reverse_perm _).trans
      ((stableAsc_perm key l.reverse).trans (List.reverse_perm l))
  · exact stableAsc_perm key l

theorem stableAsc_sorted (key : α → ℚ) (l : List α) :
    (stableAsc key l).Pairwise fun x y => key x ≤ key y := by
  rw [stableAsc, List.pairwise_map]
  have hs : (List.insertionSort (stKey key) l.enum).Pairwise (stKey key) :=
    List.sorted_insertionSort (stKey key) l.enum
  exact hs.imp fun hab => by
    rcases hab with h | ⟨h, _⟩
    · exact h.le
    · exact h.le

theorem stableSortBy_sorted_dir (key : α → ℚ) (asc : Bool) (l : List α) :
    (stableSortBy key asc l).Pairwise
      (fun x y => if asc = true then key x ≤ key y else key y ≤ key x) := by
  rw [stableSortBy]
  cases asc
  · simp only [Bool.false_eq_true, if_false]
    rw [List.pairwise_reverse]
    exact stableAsc_sorted key l.reverse
  · simp only [if_pos rfl]
    exact stableAsc_sorted key l

theorem enumFrom_filter_map_snd (p : α → Bool) :
    ∀ (n : ℕ) (l : List α),
      ((List.enumFrom n l).filter fun a => p a.2).map Prod.snd = l.filter p := by
  intro n l
  induction l generalizing n with
  | nil => rfl
  | cons x xs ih =>
    rw [List.enumFrom, List.filter_cons, List.filter_cons]
    by_cases hx : p x = true
    · simp only [hx, if_pos, List.map_cons]
      rw [ih]
    · simp only [hx, Bool.false_eq_true, if_neg, if_false]
      rw [ih]

theorem stableAsc_filter_stable (key : α → ℚ) (l : List α) (p : α → Bool)
    (v : ℚ) (hp : ∀ x, p x = true → key x = v) :
    (stableAsc key l).filter p = l.filter p := by
  rw [stableAsc, List.filter_map]
  have hcomp : (p ∘ Prod.snd : ℕ × α → Bool) = fun a => p a.2 := rfl
  rw [hcomp]
  have hperm : ((List.insertionSort (stKey key) l.enum).filter fun a => p a.2).Perm
      (l.enum.filter fun a => p a.2) :=
    (List.perm_insertionSort (stKey key) l.enum).filter _
  have hBpair : (l.enum.filter fun a => p a.2).Pairwise fun a b => a.1 < b.1 :=
    (enum_pairwise_idx l).filter _
  have hApairLe : ((List.insertionSort (stKey key) l.enum).filter fun a => p a.2).Pairwise
      fun a b => a.1 ≤ b.1 := by
    have hsorted : (List.insertionSort (stKey key) l.enum).Pairwise (stKey key) :=
      List.sorted_insertionSort (stKey key) l.enum
    refine (hsorted.filter _).imp_of_mem ?_
    intro a b ha hb hab
    have hpa := List.of_mem_filter ha
    have hpb := List.of_mem_filter hb
    have hka : key a.2 = v := hp a.2 hpa
    have hkb : key b.2 = v := hp b.2 hpb
    rcases hab with hlt | ⟨_, hle⟩
    · rw [hka, hkb] at hlt
      exact absurd hlt (lt_irrefl v)
    · exact hle
  have hBnodupfst : ((l.enum.filter fun a => p a.2).map Prod.fst).Nodup :=
    (List.pairwise_map.mpr hBpair).imp Nat.ne_of_lt
  have hAnodupfst : (((List.insertionSort (stKey key) l.enum).filter
      fun a => p a.2).map Prod.fst).Nodup :=
    ((hperm.map Prod.fst).nodup_iff).mpr hBnodupfst
  have hApairNe : ((List.insertionSort (stKey key) l.enum).filter fun a => p a.2).Pairwise
      fun a b => a.1 ≠ b.1 := List.pairwise_map.mp hAnodupfst
  have hApairLt : ((List.insertionSort (stKey key) l.enum).filter fun a => p a.2).Pairwise
      fun a b => a.1 < b.1 :=
    (hApairLe.and hApairNe).imp fun h => lt_of_le_of_ne h.1 h.2
  have heq : ((List.insertionSort (stKey key) l.enum).filter fun a => p a.2)
      = l.enum.filter fun a => p a.2 :=
    List.eq_of_perm_of_sorted hperm hApairLt hBpair
  rw [heq]
  exact enumFrom_filter_map_snd p 0 l

theorem stableSortBy_filter_stable (key : α → ℚ) (asc : Bool) (l : List α)
    (p : α → Bool) (v : ℚ) (hp : ∀ x, p x = true → key x = v) :
    (stableSortBy key asc l).filter p = l.filter p := by
  rw [stableSortBy]
  cases asc
  · simp only [Bool.false_eq_true, if_false]
    rw [List.filter_reverse, stableAsc_filter_stable key l.reverse p v hp,
      List.filter_reverse, List.reverse_reverse]
  · simp only [if_pos rfl]
    exact stableAsc_filter_stable key l p v hp

/-- Claim C1: for every dataset, constraint list, sort field, sort
direction and result cap, the single-item matcher returns the records
satisfying every constraint, sorted by the sort field in the requested
direction by a stable sort whose ties between equal sort-field values
keep original dataset order, truncated to the cap.  pandas `nargsort`
reverses the array together with its index labels before the stable
ascending argsort and reverses the indexer after, so tie order is
preserved in both directions; the final conjunct exhibits this on a
concrete descending query over two Protein-tied records. -/
theorem single_item_matcher_spec (rows : List Row) (cs : List Constraint)
    (col : String) (asc : Bool) (k : ℕ) :
    single_item_results rows cs col asc k
        = (sort_values col asc (apply_constraints_frame rows cs)).take k
      ∧ (single_item_results rows cs col asc k).length ≤ k
      ∧ (sort_values col asc (apply_constraints_frame rows cs)).Perm
          (apply_constraints_frame rows cs)
      ∧ (sort_values col asc (apply_constraints_frame rows cs)).Pairwise
          (fun x y => if asc = true then rowVal x col ≤ rowVal y col
            else rowVal y col ≤ rowVal x col)
      ∧ (∀ v : ℚ,
          (sort_values col asc (apply_constraints_frame rows cs)).filter
              (fun r => decide (rowVal r col = v))
            = (apply_constraints_frame rows cs).filter
              fun r => decide (rowVal r col = v))
      ∧ single_item_results rowsTie [] "Protein" false 5 = [rowT0, rowT1] := by
  refine ⟨rfl, List.length_take_le k _, stableSortBy_perm _ asc _,
    stableSortBy_sorted_dir _ asc _, ?_, by decide⟩
  intro v
  exact stableSortBy_filter_stable (fun r => rowVal r col) asc _ _ v
    (fun x hx => of_decide_eq_true hx)

/-! Well-formedness of everything the parser can emit. -/

theorem qOfParts_nonneg (ip fp : List Char) : 0 ≤ qOfParts ip fp := by
  rw [qOfParts, Rat.mkRat_eq_div]
  positivity

theorem matchNum_nonneg {s : List Char} {v : ℚ} {r : List Char}
    (h : matchNum s = some (v, r)) : 0 ≤ v := by
  simp only [matchNum] at h
  split at h
  · exact absurd h (by simp)
  · split at h
    · split at h
      · simp only [Option.some.injEq, Prod.mk.injEq] at h
        rw [← h.1]
        exact qOfParts_nonneg _ _
      · simp only [Option.some.injEq, Prod.mk.injEq] at h
        rw [← h.1]
        exact qOfParts_nonneg _ _
    · simp only [Option.some.injEq, Prod.mk.injEq] at h
      rw [← h.1]
      exact qOfParts_nonneg _ _

theorem tryLits_exists {alts : List (List Char)} {s : List Char}
    {k : List Char → Option α} {x : α} (h : tryLits alts s k = some x) :
    ∃ s1, k s1 = some x := by
  induction alts with
  | nil => exact absurd h (by simp [tryLits])
  | cons lit rest ih =>
    simp only [tryLits] at h
    revert h
    cases hstrip : stripLit lit s with
    | none => intro h; dsimp only at h; exact ih h
    | some s1 =>
      intro h
      dsimp only at h
      cases hk : k s1 with
      | none => rw [hk] at h; exact ih h
      | some y =>
        rw [hk] at h
        exact ⟨s1, hk.trans h⟩

theorem tryLabeled_exists {alts : List (List Char × String)} {s : List Char}
    {k : String → List Char → Option α} {x : α} (h : tryLabeled alts s k = some x) :
    ∃ la ∈ alts, ∃ s1, k la.2 s1 = some x := by
  induction alts with
  | nil => exact absurd h (by simp [tryLabeled])
  | cons la0 rest ih =>
    obtain ⟨lit, lab⟩ := la0
    simp only [tryLabeled] at h
    revert h
    cases hstrip : stripLit lit s with
    | none =>
      intro h
      dsimp only at h
      obtain ⟨la, hla, s1, hk⟩ := ih h
      exact ⟨la, List.mem_cons_of_mem _ hla, s1, hk⟩
    | some s1 =>
      intro h
      dsimp only at h
      cases hk : k lab s1 with
      | none =>
        rw [hk] at h
        obtain ⟨la, hla, s2, hk2⟩ := ih h
        exact ⟨la, List.mem_cons_of_mem _ hla, s2, hk2⟩
      | some y =>
        rw [hk] at h
        exact ⟨(lit, lab), List.mem_cons_self _ _, s1, hk.trans h⟩

theorem tryOf_exists {s : List Char} {k : List Char → Option α} {x : α}
    (h : tryOf s k = some x) : ∃ s1, k s1 = some x := by
  rw [tryOf] at h
  revert h
  cases h1 : stripLit "of".toList s with
  | none => intro h; dsimp only at h; exact ⟨s, h⟩
  | some s1 =>
    intro h
    dsimp only at h
    cases h2 : stripWs1 s1 with
    | none => rw [h2] at h; exact ⟨s, h⟩
    | some s2 =>
      rw [h2] at h
      dsimp only at h
      cases h3 : k s2 with
      | none => rw [h3] at h; exact ⟨s, h⟩
      | some y =>
        rw [h3] at h
        exact ⟨s2, h3.trans h⟩

theorem fieldAlts_labels : ∀ la ∈ fieldAlts, la.2 ∈ fourCols := by decide

theorem opsList_ops : ∀ po ∈ opsList, po.2 ∈ fiveOps := by decide

theorem matchField_mem {s : List Char} {fr : String × List Char}
    (h : matchField s = some fr) : fr.1 ∈ fourCols := by
  obtain ⟨la, hla, s1, hk⟩ := tryLabeled_exists h
  have : fr = (la.2, s1) := (Option.some.inj hk).symm
  rw [this]
  exact fieldAlts_labels la hla

theorem matchP1_wf {ph s : List Char} {vf : ℚ × String} {r : List Char}
    (h : matchP1 ph s = some (vf, r)) : 0 ≤ vf.1 ∧ vf.2 ∈ fourCols := by
  simp only [matchP1, Option.bind_eq_bind, Option.bind_eq_some] at h
  obtain ⟨s1, _, h⟩ := h
  obtain ⟨s2, _, h⟩ := h
  obtain ⟨⟨v, s3⟩, hnum, h⟩ := h
  obtain ⟨s4, h⟩ := tryLits_exists h
  obtain ⟨s5, h⟩ := tryOf_exists h
  rw [Option.map_eq_some'] at h
  obtain ⟨⟨f, s6⟩, hfield, heq⟩ := h
  have h1 : vf = (v, f) := by
    have := congrArg Prod.fst heq
    exact this.symm
  rw [h1]
  exact ⟨matchNum_nonneg hnum, matchField_mem hfield⟩

theorem matchP2_wf {ph s : List Char} {fv : String × ℚ} {r : List Char}
    (h : matchP2 ph s = some (fv, r)) : fv.1 ∈ fourCols ∧ 0 ≤ fv.2 := by
  obtain ⟨la, hla, s1, h⟩ := tryLabeled_exists h
  simp only [Option.bind_eq_bind, Option.bind_eq_some] at h
  obtain ⟨s2, _, h⟩ := h
  obtain ⟨⟨v, s3⟩, hnum, h⟩ := h
  simp only [Option.pure_def, Option.some.injEq, Prod.mk.injEq] at h
  have h1 : fv = (la.2, v) := by
    rcases h with ⟨h1, _⟩
    exact h1.symm
  rw [h1]
  exact ⟨fieldAlts_labels la hla, matchNum_nonneg hnum⟩

theorem matchBetween_wf {s : List Char} {t : ℚ × ℚ × String} {r : List Char}
    (h : matchBetween s = some (t, r)) : 0 ≤ t.1 ∧ 0 ≤ t.2.1 ∧ t.2.2 ∈ fourCols := by
  simp only [matchBetween, Option.bind_eq_bind, Option.bind_eq_some] at h
  obtain ⟨s1, _, h⟩ := h
  obtain ⟨s2, _, h⟩ := h
  obtain ⟨⟨a, s3⟩, hnuma, h⟩ := h
  obtain ⟨s4, h⟩ := tryLits_exists h
  obtain ⟨s5, h⟩ := tryLits_exists h
  simp only [Option.bind_eq_bind, Option.bind_eq_some] at h
  obtain ⟨⟨b, s6⟩, hnumb, h⟩ := h
  obtain ⟨s7, h⟩ := tryLits_exists h
  rw [Option.map_eq_some'] at h
  obtain ⟨⟨f, s8⟩, hfield, heq⟩ := h
  have h1 : t = (a, b, f) := by
    have := congrArg Prod.fst heq
    exact this.symm
  rw [h1]
  exact ⟨matchNum_nonneg hnuma, matchNum_nonneg hnumb, matchField_mem hfield⟩

theorem scanAux_mem {m : List Char → Option (α × List Char)} {a : α} :
    ∀ {fuel : ℕ} {s : List Char}, a ∈ scanAux m fuel s →
      ∃ s1 r, m s1 = some (a, r) := by
  intro fuel
  induction fuel with
  | zero => intro s h; exact absurd h (List.not_mem_nil a)
  | succ fuel ih =>
    intro s h
    simp only [scanAux] at h
    revert h
    cases hm : m s with
    | none =>
      cases s with
      | nil => intro h; exact absurd h (List.not_mem_nil a)
      | cons c t => intro h; dsimp only at h; exact ih h
    | some ar =>
      obtain ⟨a0, rest⟩ := ar
      intro h
      dsimp only at h
      by_cases hlen : rest.length < s.length
      · rw [if_pos hlen] at h
        rcases List.mem_cons.mp h with h3 | h3
        · exact ⟨s, rest, by rw [h3]; exact hm⟩
        · exact ih h3
      · rw [if_neg hlen] at h
        revert hm h
        cases s with
        | nil =>
          intro hm h
          dsimp only at h
          rcases List.mem_cons.mp h with h3 | h3
          · exact ⟨[], rest, by rw [h3]; exact hm⟩
          · exact absurd h3 (List.not_mem_nil a)
        | cons c t =>
          intro hm h
          dsimp only at h
          rcases List.mem_cons.mp h with h3 | h3
          · exact ⟨c :: t, rest, by rw [h3]; exact hm⟩
          · exact ih h3

theorem findAll_mem {m : List Char → Option (α × List Char)} {s : List Char} {a : α}
    (h : a ∈ findAll m s) : ∃ s1 r, m s1 = some (a, r) :=
  scanAux_mem h

theorem betweenConstraints_wf {a b : ℚ} {f : String} (ha : 0 ≤ a) (hb : 0 ≤ b)
    (hf : f ∈ fourCols) : ∀ c ∈ betweenConstraints a b f, wfConstraint c := by
  intro c hc
  simp only [betweenConstraints, List.mem_cons, List.not_mem_nil, or_false] at hc
  rcases hc with hc | hc <;> subst hc
  · refine ⟨hf, ?_, ?_⟩
    · show (">=" : String) ∈ fiveOps
      decide
    · show 0 ≤ if b < a then b else a
      split
      · exact hb
      · exact ha
  · refine ⟨hf, ?_, ?_⟩
    · show ("<=" : String) ∈ fiveOps
      decide
    · show 0 ≤ if b < a then a else b
      split
      · exact ha
      · exact hb

theorem collectAll_wf (text : List Char) : ∀ c ∈ collectAll text, wfConstraint c := by
  intro c hc
  rw [collectAll, List.mem_append] at hc
  rcases hc with hc | hc
  · rw [List.mem_flatMap] at hc
    obtain ⟨t, ht, hct⟩ := hc
    obtain ⟨s1, r, hm⟩ := findAll_mem ht
    obtain ⟨h1, h2, h3⟩ := matchBetween_wf hm
    exact betweenConstraints_wf h1 h2 h3 c hct
  · rw [List.mem_flatMap] at hc
    obtain ⟨po, hpo, hc⟩ := hc
    have hop : po.2 ∈ fiveOps := opsList_ops po hpo
    rw [List.mem_append] at hc
    rcases hc with hc | hc
    · rw [List.mem_map] at hc
      obtain ⟨vf, hvf, hceq⟩ := hc
      obtain ⟨s1, r, hm⟩ := findAll_mem hvf
      obtain ⟨h1, h2⟩ := matchP1_wf hm
      rw [← hceq]
      exact ⟨h2, hop, h1⟩
    · rw [List.mem_map] at hc
      obtain ⟨fv, hfv, hceq⟩ := hc
      obtain ⟨s1, r, hm⟩ := findAll_mem hfv
      obtain ⟨h1, h2⟩ := matchP2_wf hm
      rw [← hceq]
      exact ⟨h1, hop, h2⟩

/-- Claim C10: every constraint the free-text parser returns is
well-formed — its column is one of the four macro names, its operator one
of the five comparison symbols, and its threshold non-negative (the
numeric patterns capture only unsigned digit strings, and columns and
operators come only from the fixed lookup tables). -/
theorem parse_constraints_wellformed (q : String) (c : Constraint)
    (h : c ∈ parse_freeform q) : wfConstraint c := by
  rw [parse_freeform] at h
  by_cases hws : q.toList.all isWs = true
  · rw [if_pos hws] at h
    exact absurd h (List.not_mem_nil c)
  · rw [if_neg hws, dedupFirst] at h
    exact collectAll_wf _ c (mem_dedupGo.mp h).1

/-- Claim C10 witness: `parse_constraints_wellformed` at the concrete
input `over 30 protein` and its single parsed constraint. -/
theorem parse_constraints_wellformed_witness :
    (⟨"Protein", ">=", 30⟩ : Constraint) ∈ parse_freeform "over 30 protein"
      ∧ wfConstraint ⟨"Protein", ">=", 30⟩ :=
  ⟨by decide, parse_constraints_wellformed "over 30 protein" _ (by decide)⟩

end MacroFinder
